import Mathlib

/-!
# Retention decision logic of `delete-workflows-run` (`src/main.js`)

A shallow embedding of the pure parts of `src/main.js`:

* `filterWorkflowsByPattern`, `filterWorkflowsByState` and the two gates in
  `run` that apply them (lines 66-73, 123-133);
* the orphan filter of `run` (lines 49-64);
* `filterRuns`: the classification loop and the minimum-retention guard
  (lines 135-167);
* the sequence of `deleteRun` calls and skip log lines that `run` issues.

Modelling conventions.

* A JavaScript string is a `List Char`.  The program only compares strings,
  splits them on `","`, trims them, searches for substrings and removes a
  literal; on well-formed strings these agree on code points and on UTF-16
  code units.
* Numeric identifiers (`id`, `workflow_id`) are natural numbers.
* `new Date(x)` is the number of milliseconds since the epoch, an integer.
  The clock `new Date()` is read once per run inside the loop of
  `filterRuns`; it is modelled by a function giving the reading at each
  loop index.
* A JavaScript number is the rational value of a finite binary64 number.
  The subtraction `current - created_at` and the division by
  `1000 * 3600 * 24` round to the nearest binary64 number, ties to even
  (`roundDouble`); `>=` compares the values exactly.  `retain_days` is the
  value `Number(...)` returned, a binary64 number.  Time values of `Date`
  are integers of absolute value at most `8.64e15`, so no operation
  overflows; `NaN` and the infinities are not modelled.
* `keep_minimum_runs` is a natural number (a non-negative integer).
* `String.prototype.toUpperCase` is a parameter of the definitions that use
  it.
-/

namespace DeleteWorkflowRuns

/-! ## Strings -/

/-- A JavaScript string. -/
abbrev JSString := List Char

/-- `String.prototype.includes`: `s.includes(pat)`, substring search. -/
def includes : JSString → JSString → Bool
  | [], pat => pat.isPrefixOf []
  | c :: s, pat => pat.isPrefixOf (c :: s) || includes s pat

/-- `String.prototype.replace` with a string pattern and the empty string
as replacement: the first occurrence of `pat` in `s` is removed. -/
def replaceFirst (pat : JSString) : JSString → JSString
  | [] => []
  | c :: s => if pat.isPrefixOf (c :: s) then (c :: s).drop pat.length
      else c :: replaceFirst pat s

/-- `String.prototype.split` with a one-character separator. -/
def split (sep : Char) : JSString → List JSString
  | [] => [[]]
  | c :: s =>
    if c = sep then [] :: split sep s
    else
      match split sep s with
      | [] => [[c]]
      | seg :: segs => (c :: seg) :: segs

/-- White space and line terminators of ECMAScript, the characters that
`String.prototype.trim` removes. -/
def isWhiteSpace (c : Char) : Bool :=
  let n := c.toNat
  n == 0x09 || n == 0x0A || n == 0x0B || n == 0x0C || n == 0x0D || n == 0x20
    || n == 0xA0 || n == 0x1680 || (0x2000 ≤ n && n ≤ 0x200A)
    || n == 0x2028 || n == 0x2029 || n == 0x202F || n == 0x205F
    || n == 0x3000 || n == 0xFEFF

/-- `String.prototype.trim`. -/
def trim (s : JSString) : JSString :=
  ((s.dropWhile isWhiteSpace).reverse.dropWhile isWhiteSpace).reverse

/-- `Array.prototype.includes` on an array of strings, for a value that is
a string or `null`; `null` is never found. -/
def arrayIncludes (xs : List JSString) : Option JSString → Bool
  | none => false
  | some v => xs.contains v

/-- ASCII upper-casing, an instance for the `toUpperCase` parameter. -/
def asciiUpper (s : JSString) : JSString := s.map Char.toUpper

/-! ## Data model -/

/-- A workflow as returned by the workflows listing. -/
structure Workflow where
  id : Nat
  name : JSString
  path : JSString
  state : JSString
  deriving DecidableEq, Repr

/-- A workflow run as returned by the runs listings.  `created_at` is the
value of `new Date(run.created_at)` in milliseconds. -/
structure Run where
  id : Nat
  name : JSString
  workflow_id : Nat
  status : JSString
  conclusion : Option JSString
  created_at : Int
  head_branch : Option JSString
  pull_requests : List Nat
  deriving DecidableEq, Repr

/-- The options record passed to `filterRuns`.  `retain_days` is the value
of the number `Number(...)` returned at line 10. -/
structure Options where
  retain_days : ℚ
  keep_minimum_runs : Nat
  delete_run_by_conclusion_pattern : JSString
  check_branch_existence : Bool
  check_pullrequest_exist : Bool
  branchNames : List JSString

/-! ## Workflow catalog filter -/

/-- The literal removed from `path` to obtain the filename. -/
def workflowsDir : JSString := ".github/workflows/".toList

/-- Source `filterWorkflowsByPattern`, lines 123-128. -/
def filterWorkflowsByPattern (workflows : List Workflow) (pattern : JSString) :
    List Workflow :=
  workflows.filter fun w =>
    let filename := replaceFirst workflowsDir w.path
    [w.name, filename].any fun x => includes x pattern

/-- Source `filterWorkflowsByState`, lines 130-133. -/
def filterWorkflowsByState (workflows : List Workflow) (statePattern : JSString) :
    List Workflow :=
  let states := (split ',' statePattern).map trim
  workflows.filter fun w => states.contains w.state

/-- Lines 67-70 of `run`: the name pattern gate. -/
def applyNamePattern (workflows : List Workflow) (delete_workflow_pattern : JSString) :
    List Workflow :=
  if !delete_workflow_pattern.isEmpty then
    filterWorkflowsByPattern workflows delete_workflow_pattern
  else workflows

/-- Lines 71-73 of `run`: the state pattern gate. -/
def applyStatePattern (toUpperCase : JSString → JSString) (workflows : List Workflow)
    (delete_workflow_by_state_pattern : JSString) : List Workflow :=
  if !delete_workflow_by_state_pattern.isEmpty
      && toUpperCase delete_workflow_by_state_pattern != "ALL".toList then
    filterWorkflowsByState workflows delete_workflow_by_state_pattern
  else workflows

/-- Lines 66-73 of `run`: both gates in sequence. -/
def filterWorkflows (toUpperCase : JSString → JSString) (workflows : List Workflow)
    (delete_workflow_pattern delete_workflow_by_state_pattern : JSString) : List Workflow :=
  applyStatePattern toUpperCase (applyNamePattern workflows delete_workflow_pattern)
    delete_workflow_by_state_pattern

/-! ## Orphan runs -/

/-- Lines 49 and 58 of `run`: the runs whose workflow is not in the catalog. -/
def orphanRuns (workflows : List Workflow) (all_runs : List Run) : List Run :=
  let workflow_ids := workflows.map fun w => w.id
  all_runs.filter fun run => !workflow_ids.contains run.workflow_id

/-! ## Run classifier and minimum-retention guard -/

/-- Lines 141-144: the skip predicates. -/
def shouldSkip (options : Options) (run : Run) : Bool :=
  run.status != "completed".toList
    || (options.check_pullrequest_exist && decide (run.pull_requests.length > 0))
    || (options.check_branch_existence && arrayIncludes options.branchNames run.head_branch)
    || (!options.delete_run_by_conclusion_pattern.isEmpty
        && !arrayIncludes ((split ',' options.delete_run_by_conclusion_pattern).map trim)
              run.conclusion)

/-- Rounding of a rational to the nearest integer, ties to the even one. -/
def roundHalfEven (y : ℚ) : ℤ :=
  if y - ⌊y⌋ < 1 / 2 then ⌊y⌋
  else if 1 / 2 < y - ⌊y⌋ then ⌊y⌋ + 1
  else if ⌊y⌋ % 2 = 0 then ⌊y⌋ else ⌊y⌋ + 1

/-- The exponent of the unit in the last place of the binary64 numbers
around `x`: 53 significant bits, and the least exponent `-1022` of a
normal number for the subnormal ones. -/
def ulpExponent (x : ℚ) : ℤ := max (Int.log 2 |x|) (-1022) - 52

/-- The result of a JavaScript arithmetic operation whose exact value is
`x`: the binary64 number nearest to `x`, ties to even. -/
def roundDouble (x : ℚ) : ℚ :=
  if x = 0 then 0
  else (roundHalfEven (x / (2 : ℚ) ^ ulpExponent x) : ℚ) * (2 : ℚ) ^ ulpExponent x

/-- Lines 149-151: elapsed time in days, `(current - created_at) /
(1000 * 3600 * 24)` in binary64 arithmetic. -/
def elapsed_days (current created_at : Int) : ℚ :=
  roundDouble (roundDouble ((current - created_at : Int) : ℚ) / (1000 * 3600 * 24))

/-- Lines 140-159: the `forEach` loop from loop index `i` on, acting on the
pair `(del_runs, skip_runs)`; `clock i` is the reading of `new Date()` in
iteration `i`. -/
def classifyFrom (options : Options) (clock : Nat → Int) :
    Nat → List Run → List Run × List Run → List Run × List Run
  | _, [], acc => acc
  | i, run :: rest, (del_runs, skip_runs) =>
    if shouldSkip options run then
      classifyFrom options clock (i + 1) rest (del_runs, skip_runs ++ [run])
    else if elapsed_days (clock i) run.created_at ≥ options.retain_days then
      classifyFrom options clock (i + 1) rest (del_runs ++ [run], skip_runs)
    else
      classifyFrom options clock (i + 1) rest (del_runs, skip_runs ++ [run])

/-- Lines 137-159: the classification pass, before the guard. -/
def classify (options : Options) (clock : Nat → Int) (runs : List Run) :
    List Run × List Run :=
  classifyFrom options clock 0 runs ([], [])

/-- `Array.prototype.sort` with comparator `(a, b) => a.id - b.id`: a stable
sort by ascending `id`. -/
def sortById (runs : List Run) : List Run :=
  runs.insertionSort fun a b => a.id ≤ b.id

/-- `Array.prototype.splice(start)` with the delete count omitted: the
array keeps its first `actualStart` elements and the rest is returned.
The result is `(array after the call, returned elements)`. -/
def splice {α : Type} (arr : List α) (start : Int) : List α × List α :=
  let len : Int := arr.length
  let actualStart : Int := if start < 0 then max (len + start) 0 else min start len
  (arr.take actualStart.toNat, arr.drop actualStart.toNat)

/-- Lines 161-164: the minimum-retention guard. -/
def applyGuard (keep_minimum_runs : Nat) (p : List Run × List Run) :
    List Run × List Run :=
  if p.1.length > keep_minimum_runs then
    let sorted := sortById p.1
    let r := splice sorted (-(keep_minimum_runs : Int))
    (r.1, p.2 ++ r.2)
  else p

/-- Source `filterRuns`, lines 135-167; the result is
`(del_runs, skip_runs)`. -/
def filterRuns (clock : Nat → Int) (runs : List Run) (options : Options) :
    List Run × List Run :=
  applyGuard options.keep_minimum_runs (classify options clock runs)

/-! ## The calls issued by `run` -/

/-- The parsed inputs of `run`, lines 10-17. -/
structure Inputs where
  retain_days : ℚ
  keep_minimum_runs : Nat
  delete_workflow_pattern : JSString
  delete_workflow_by_state_pattern : JSString
  delete_run_by_conclusion_pattern : JSString
  dry_run : Bool
  check_branch_existence : Bool
  check_pullrequest_exist : Bool

/-- A branch as returned by the branches listing. -/
structure Branch where
  name : JSString
  deriving DecidableEq, Repr

/-- The results of the paginated listings that `run` awaits: the workflows
(line 45), all runs (line 52), the branches (line 76) and, for each
workflow id, the runs of that workflow (line 84). -/
structure Listings where
  workflows : List Workflow
  all_runs : List Run
  branches : List Branch
  workflow_runs : Nat → List Run

/-- What `run` does that can be observed: the count line of line 59, the
calls of `deleteRun` with their `dry_run`, `run_id` and `run_name`
arguments (lines 63 and 101), and the skip lines of line 106. -/
inductive Event where
  | orphanCount (n : Nat)
  | deleteRun (dry_run : Bool) (run_id : Nat) (run_name : JSString)
  | skipped (workflow_name : JSString) (run_id : Nat) (created_at : Int)
  deriving DecidableEq, Repr

/-- Lines 83-108 of `run`: the loop over the filtered workflows, from loop
index `j` on; `clock j` is the clock of the call of `filterRuns` made in
iteration `j`.  Every call of `deleteRun` is taken to return. -/
def processWorkflows (inputs : Inputs) (branchNames : List JSString)
    (workflow_runs : Nat → List Run) (clock : Nat → Nat → Int) :
    Nat → List Workflow → List Event
  | _, [] => []
  | j, workflow :: rest =>
    let runs := workflow_runs workflow.id
    let r := filterRuns (clock j) runs
      { retain_days := inputs.retain_days
        keep_minimum_runs := inputs.keep_minimum_runs
        delete_run_by_conclusion_pattern := inputs.delete_run_by_conclusion_pattern
        check_branch_existence := inputs.check_branch_existence
        check_pullrequest_exist := inputs.check_pullrequest_exist
        branchNames := branchNames }
    r.1.map (fun del => Event.deleteRun inputs.dry_run del.id workflow.name)
      ++ r.2.map (fun skip => Event.skipped workflow.name skip.id skip.created_at)
      ++ processWorkflows inputs branchNames workflow_runs clock (j + 1) rest

/-- Lines 44-108 of `run`, after the inputs are read and the client is
built: the events in the order in which they happen, every call of
`deleteRun` being taken to return. -/
def run (toUpperCase : JSString → JSString) (inputs : Inputs) (api : Listings)
    (clock : Nat → Nat → Int) : List Event :=
  let workflows := api.workflows
  let del_runs := orphanRuns workflows api.all_runs
  let filteredWorkflows := filterWorkflows toUpperCase workflows
    inputs.delete_workflow_pattern inputs.delete_workflow_by_state_pattern
  let branchNames := api.branches.map fun branch => branch.name
  Event.orphanCount del_runs.length
    :: del_runs.map (fun del => Event.deleteRun inputs.dry_run del.id del.name)
    ++ processWorkflows inputs branchNames api.workflow_runs clock 0 filteredWorkflows

/-! ## The filename as the specification words it -/

/-- The filename of the specification: `path` with any leading directory
prefix removed, the part of `path` after its last `/`. -/
def specFilename (path : JSString) : JSString :=
  ((split '/' path).getLast?).getD []

/-- The name filter of the specification: the workflows whose name or
whose `specFilename` contains the pattern. -/
def specFilterWorkflowsByPattern (workflows : List Workflow) (pattern : JSString) :
    List Workflow :=
  workflows.filter fun w => includes w.name pattern || includes (specFilename w.path) pattern

/-! ## The elapsed time as the specification words it -/

/-- The elapsed time measured exactly: `current - created_at` in days of
24 hours, without rounding. -/
def exactElapsedDays (current created_at : Int) : ℚ :=
  ((current - created_at : Int) : ℚ) / (1000 * 3600 * 24)

/-! ## Sample data -/

/-- The value of `Number("0.1")`, the binary64 number nearest to `1/10`. -/
def doubleTenth : ℚ := 3602879701896397 / 36028797018963968

/-- A completed run with conclusion `success` on branch `main`, without
pull requests. -/
def sampleRun (id : Nat) (created_at : Int) : Run :=
  { id := id
    name := "CI".toList
    workflow_id := 1
    status := "completed".toList
    conclusion := some "success".toList
    created_at := created_at
    head_branch := some "main".toList
    pull_requests := [] }

/-- Options with no conclusion pattern and both checks disabled. -/
def sampleOptions (retain_days : ℚ) (keep_minimum_runs : Nat) : Options :=
  { retain_days := retain_days
    keep_minimum_runs := keep_minimum_runs
    delete_run_by_conclusion_pattern := []
    check_branch_existence := false
    check_pullrequest_exist := false
    branchNames := [] }

/-- A run that is still in progress. -/
def sampleRunInFlight (id : Nat) (created_at : Int) : Run :=
  { id := id
    name := "CI".toList
    workflow_id := 1
    status := "in_progress".toList
    conclusion := none
    created_at := created_at
    head_branch := some "main".toList
    pull_requests := [] }

/-- A run of workflow `workflow_id`. -/
def sampleRunOf (id workflow_id : Nat) : Run :=
  { id := id
    name := "CI".toList
    workflow_id := workflow_id
    status := "completed".toList
    conclusion := some "success".toList
    created_at := 0
    head_branch := some "main".toList
    pull_requests := [] }

/-- A workflow stored under `.github/workflows/`. -/
def sampleWorkflow (id : Nat) (name file state : String) : Workflow :=
  { id := id
    name := name.toList
    path := workflowsDir ++ file.toList
    state := state.toList }

/-- Inputs with no patterns and both checks disabled. -/
def sampleInputs (retain_days : ℚ) (keep_minimum_runs : Nat) : Inputs :=
  { retain_days := retain_days
    keep_minimum_runs := keep_minimum_runs
    delete_workflow_pattern := []
    delete_workflow_by_state_pattern := []
    delete_run_by_conclusion_pattern := []
    dry_run := false
    check_branch_existence := false
    check_pullrequest_exist := false }

/-- Listings of a repository with one workflow, of id 1, and two runs: run
1 of workflow 1 and run 2 of the deleted workflow 9. -/
def sampleListings : Listings :=
  { workflows := [sampleWorkflow 1 "CI" "ci.yml" "active"]
    all_runs := [sampleRunOf 1 1, sampleRunOf 2 9]
    branches := [{ name := "main".toList }]
    workflow_runs := fun id => if id = 1 then [sampleRunOf 1 1] else [] }

/-- Milliseconds in `n` days of 24 hours. -/
def days (n : Int) : Int := n * (1000 * 3600 * 24)

/-! ## Auxiliary definitions used to state and prove the properties -/

/-- The test a run passes at clock reading `current` to become a deletion
candidate: no skip predicate holds and `elapsed_days >= retain_days`. -/
def isCandidateAt (options : Options) (current : Int) (run : Run) : Bool :=
  !shouldSkip options run && decide (elapsed_days current run.created_at ≥ options.retain_days)

/-- The runs of `runs` that pass the candidate test, the run at position
`j` being examined at clock reading `clock (i + j)`. -/
def candidatesFrom (options : Options) (clock : Nat → Int) : Nat → List Run → List Run
  | _, [] => []
  | i, run :: rest =>
    if isCandidateAt options (clock i) run then run :: candidatesFrom options clock (i + 1) rest
    else candidatesFrom options clock (i + 1) rest

/-- The runs of `runs` that fail the candidate test. -/
def keptFrom (options : Options) (clock : Nat → Int) : Nat → List Run → List Run
  | _, [] => []
  | i, run :: rest =>
    if isCandidateAt options (clock i) run then keptFrom options clock (i + 1) rest
    else run :: keptFrom options clock (i + 1) rest

/-! ## Lemmas on the classification loop -/

theorem classifyFrom_eq (options : Options) (clock : Nat → Int) (runs : List Run) :
    ∀ (i : Nat) (acc : List Run × List Run),
      classifyFrom options clock i runs acc
        = (acc.1 ++ candidatesFrom options clock i runs,
           acc.2 ++ keptFrom options clock i runs) := by
  induction runs with
  | nil => intro i acc; simp [classifyFrom, candidatesFrom, keptFrom]
  | cons run rest ih =>
    intro i acc
    obtain ⟨d, s⟩ := acc
    by_cases h1 : shouldSkip options run = true
    · simp [classifyFrom, candidatesFrom, keptFrom, isCandidateAt, h1, ih]
    · by_cases h2 : elapsed_days (clock i) run.created_at ≥ options.retain_days
      · simp [classifyFrom, candidatesFrom, keptFrom, isCandidateAt, h1, h2, ih]
      · simp [classifyFrom, candidatesFrom, keptFrom, isCandidateAt, h1, h2, ih]

theorem classify_eq (options : Options) (clock : Nat → Int) (runs : List Run) :
    classify options clock runs
      = (candidatesFrom options clock 0 runs, keptFrom options clock 0 runs) := by
  simp [classify, classifyFrom_eq]

theorem candidatesFrom_append_keptFrom_perm (options : Options) (clock : Nat → Int)
    (runs : List Run) :
    ∀ i, (candidatesFrom options clock i runs ++ keptFrom options clock i runs).Perm runs := by
  induction runs with
  | nil => intro i; simp [candidatesFrom, keptFrom]
  | cons run rest ih =>
    intro i
    by_cases h : isCandidateAt options (clock i) run = true
    · simpa [candidatesFrom, keptFrom, h] using ih (i + 1)
    · simp only [candidatesFrom, keptFrom, h]
      exact (List.perm_middle).trans ((ih (i + 1)).cons run)

theorem exists_getElem?_cons_iff {α : Type} (a r : α) (l : List α) (P : Nat → Prop) :
    (∃ j, (a :: l)[j]? = some r ∧ P j) ↔
      ((a = r ∧ P 0) ∨ ∃ j, l[j]? = some r ∧ P (j + 1)) := by
  constructor
  · rintro ⟨j, hj, hc⟩
    cases j with
    | zero =>
      left
      simp at hj
      exact ⟨hj, hc⟩
    | succ j =>
      right
      simp at hj
      exact ⟨j, hj, hc⟩
  · rintro (⟨h1, h2⟩ | ⟨j, hj, hc⟩)
    · exact ⟨0, by simp [h1], h2⟩
    · exact ⟨j + 1, by simpa using hj, hc⟩

theorem mem_candidatesFrom (options : Options) (clock : Nat → Int) (r : Run)
    (runs : List Run) :
    ∀ i, r ∈ candidatesFrom options clock i runs ↔
      ∃ j, runs[j]? = some r ∧ isCandidateAt options (clock (i + j)) r = true := by
  induction runs with
  | nil => intro i; simp [candidatesFrom]
  | cons run rest ih =>
    intro i
    rw [exists_getElem?_cons_iff run r rest
      (fun j => isCandidateAt options (clock (i + j)) r = true)]
    have ih1 := ih (i + 1)
    simp only [Nat.add_assoc, Nat.add_comm 1] at ih1
    simp only [Nat.add_zero]
    rw [← ih1, candidatesFrom]
    split_ifs with h
    · rw [List.mem_cons]
      constructor
      · rintro (h1 | h2)
        · left; subst h1; exact ⟨rfl, h⟩
        · right; exact h2
      · rintro (⟨h1, _⟩ | h2)
        · left; exact h1.symm
        · right; exact h2
    · constructor
      · intro h2; right; exact h2
      · rintro (⟨h1, h2⟩ | h2)
        · subst h1; exact absurd h2 h
        · exact h2

theorem mem_keptFrom (options : Options) (clock : Nat → Int) (r : Run)
    (runs : List Run) :
    ∀ i, r ∈ keptFrom options clock i runs ↔
      ∃ j, runs[j]? = some r ∧ isCandidateAt options (clock (i + j)) r = false := by
  induction runs with
  | nil => intro i; simp [keptFrom]
  | cons run rest ih =>
    intro i
    rw [exists_getElem?_cons_iff run r rest
      (fun j => isCandidateAt options (clock (i + j)) r = false)]
    have ih1 := ih (i + 1)
    simp only [Nat.add_assoc, Nat.add_comm 1] at ih1
    simp only [Nat.add_zero]
    rw [← ih1, keptFrom]
    split_ifs with h
    · constructor
      · intro h2; right; exact h2
      · rintro (⟨h1, h2⟩ | h2)
        · subst h1; rw [h] at h2; exact absurd h2 (by decide)
        · exact h2
    · rw [List.mem_cons]
      constructor
      · rintro (h1 | h2)
        · left; subst h1; exact ⟨rfl, by simpa using h⟩
        · right; exact h2
      · rintro (⟨h1, _⟩ | h2)
        · left; exact h1.symm
        · right; exact h2

theorem candidatesFrom_const (options : Options) (now : Int) (runs : List Run) :
    ∀ i, candidatesFrom options (fun _ => now) i runs
      = runs.filter (isCandidateAt options now) := by
  induction runs with
  | nil => intro i; simp [candidatesFrom]
  | cons run rest ih =>
    intro i
    by_cases h : isCandidateAt options now run = true
    · simp [candidatesFrom, h, ih]
    · simp [candidatesFrom, h, ih]

theorem keptFrom_const (options : Options) (now : Int) (runs : List Run) :
    ∀ i, keptFrom options (fun _ => now) i runs
      = runs.filter (fun r => !isCandidateAt options now r) := by
  induction runs with
  | nil => intro i; simp [keptFrom]
  | cons run rest ih =>
    intro i
    by_cases h : isCandidateAt options now run = true
    · simp [keptFrom, h, ih]
    · simp [keptFrom, h, ih]

theorem classify_const (options : Options) (now : Int) (runs : List Run) :
    classify options (fun _ => now) runs
      = (runs.filter (isCandidateAt options now),
         runs.filter (fun r => !isCandidateAt options now r)) := by
  rw [classify_eq, candidatesFrom_const, keptFrom_const]

theorem filterRuns_const (options : Options) (now : Int) (runs : List Run) :
    filterRuns (fun _ => now) runs options
      = applyGuard options.keep_minimum_runs
          (runs.filter (isCandidateAt options now),
           runs.filter (fun r => !isCandidateAt options now r)) := by
  rw [filterRuns, classify_const]

/-! ## Lemmas on binary64 rounding and elapsed time -/

theorem roundHalfEven_intCast (n : ℤ) : roundHalfEven (n : ℚ) = n := by
  simp [roundHalfEven]

theorem abs_roundHalfEven_sub_le (y : ℚ) : |(roundHalfEven y : ℚ) - y| ≤ 1 / 2 := by
  have h1 : (⌊y⌋ : ℚ) ≤ y := Int.floor_le y
  have h2 : y < ⌊y⌋ + 1 := Int.lt_floor_add_one y
  unfold roundHalfEven
  rw [abs_le]
  split_ifs with ha hb hc
  · constructor <;> linarith
  · push_cast; constructor <;> linarith
  · have : y - ⌊y⌋ = 1 / 2 := le_antisymm (not_lt.mp hb) (not_lt.mp ha)
    constructor <;> linarith
  · have : y - ⌊y⌋ = 1 / 2 := le_antisymm (not_lt.mp hb) (not_lt.mp ha)
    push_cast; constructor <;> linarith

theorem roundHalfEven_nonneg (y : ℚ) (hy : 0 ≤ y) : 0 ≤ roundHalfEven y := by
  have h : 0 ≤ ⌊y⌋ := Int.floor_nonneg.mpr hy
  unfold roundHalfEven
  split_ifs <;> omega

theorem roundDouble_nonneg (x : ℚ) (hx : 0 ≤ x) : 0 ≤ roundDouble x := by
  unfold roundDouble
  split_ifs with h0
  · exact le_refl _
  · have hp : (0 : ℚ) < (2 : ℚ) ^ ulpExponent x := by positivity
    have : 0 ≤ roundHalfEven (x / (2 : ℚ) ^ ulpExponent x) :=
      roundHalfEven_nonneg _ (div_nonneg hx hp.le)
    have h2 : (0 : ℚ) ≤ (roundHalfEven (x / (2 : ℚ) ^ ulpExponent x) : ℚ) := by exact_mod_cast this
    exact mul_nonneg h2 hp.le

theorem abs_roundDouble_sub_le (x : ℚ) :
    |roundDouble x - x| ≤ (2 : ℚ) ^ ulpExponent x / 2 := by
  have hp : (0 : ℚ) < (2 : ℚ) ^ ulpExponent x := by positivity
  unfold roundDouble
  split_ifs with h0
  · subst h0
    simp only [sub_self, abs_zero]
    positivity
  · have h1 := abs_roundHalfEven_sub_le (x / (2 : ℚ) ^ ulpExponent x)
    have h2 : (roundHalfEven (x / (2 : ℚ) ^ ulpExponent x) : ℚ) * (2 : ℚ) ^ ulpExponent x - x
        = ((roundHalfEven (x / (2 : ℚ) ^ ulpExponent x) : ℚ) - x / (2 : ℚ) ^ ulpExponent x)
            * (2 : ℚ) ^ ulpExponent x := by
      field_simp
    rw [h2, abs_mul, abs_of_pos hp]
    calc _ ≤ 1 / 2 * (2 : ℚ) ^ ulpExponent x := mul_le_mul_of_nonneg_right h1 hp.le
      _ = _ := by ring

theorem ulpExponent_le (x : ℚ) (e : ℤ) (he : 0 ≤ e) (hx : |x| < (2 : ℚ) ^ (e + 1)) :
    ulpExponent x ≤ e - 52 := by
  unfold ulpExponent
  have h : Int.log 2 |x| ≤ e := by
    by_cases h0 : x = 0
    · subst h0; simp; omega
    · have hpos : 0 < |x| := abs_pos.mpr h0
      have := (Int.lt_zpow_iff_log_lt (R := ℚ) (b := 2) (by norm_num) hpos).mp
        (by exact_mod_cast hx)
      omega
  have : max (Int.log 2 |x|) (-1022) ≤ e := max_le h (by omega)
  omega

theorem roundDouble_intCast (n : ℤ) (hn : |n| < 2 ^ 53) : roundDouble (n : ℚ) = n := by
  by_cases h0 : n = 0
  · subst h0; simp [roundDouble]
  · have hq0 : (n : ℚ) ≠ 0 := by exact_mod_cast h0
    have hpos : (0 : ℚ) < |(n : ℚ)| := abs_pos.mpr hq0
    have h1 : (1 : ℚ) ≤ |(n : ℚ)| := by
      have : (1 : ℤ) ≤ |n| := Int.one_le_abs h0
      exact_mod_cast this
    have h2 : |(n : ℚ)| < (2 : ℚ) ^ (53 : ℤ) := by
      rw [← Int.cast_abs]
      have : ((|n| : ℤ) : ℚ) < ((2 ^ 53 : ℤ) : ℚ) := Int.cast_lt.mpr hn
      norm_num at this ⊢
      exact this
    have hlo : 0 ≤ Int.log 2 |(n : ℚ)| :=
      (Int.zpow_le_iff_le_log (R := ℚ) (b := 2) (by norm_num) hpos).mp (by simpa using h1)
    have hhi : Int.log 2 |(n : ℚ)| < 53 :=
      (Int.lt_zpow_iff_log_lt (R := ℚ) (b := 2) (by norm_num) hpos).mp (by exact_mod_cast h2)
    obtain ⟨k, hk⟩ : ∃ k : ℕ, (52 - Int.log 2 |(n : ℚ)| : ℤ) = k :=
      Int.eq_ofNat_of_zero_le (by omega)
    have hu : ulpExponent (n : ℚ) = -(k : ℤ) := by
      unfold ulpExponent
      rw [max_eq_left (by omega)]
      omega
    have hpow : (2 : ℚ) ^ (-(k : ℤ)) = ((2 : ℚ) ^ k)⁻¹ := by
      rw [zpow_neg, zpow_natCast]
    have hk0 : ((2 : ℚ) ^ k) ≠ 0 := by positivity
    have hy : (n : ℚ) / ((2 : ℚ) ^ k)⁻¹ = ((n * 2 ^ k : ℤ) : ℚ) := by
      push_cast
      field_simp
    rw [roundDouble, if_neg hq0, hu, hpow, hy, roundHalfEven_intCast]
    push_cast
    field_simp

theorem elapsed_days_eq_roundDouble (current created_at : Int)
    (h : |current - created_at| < 2 ^ 53) :
    elapsed_days current created_at = roundDouble (exactElapsedDays current created_at) := by
  rw [elapsed_days, roundDouble_intCast _ h, exactElapsedDays]

theorem abs_exactElapsedDays_lt (current created_at : Int)
    (h : |current - created_at| < 2 ^ 53) :
    |exactElapsedDays current created_at| < (2 : ℚ) ^ ((26 : ℤ) + 1) := by
  have h1 : |((current - created_at : Int) : ℚ)| < 2 ^ 53 := by
    rw [← Int.cast_abs]
    have : ((|current - created_at| : ℤ) : ℚ) < ((2 ^ 53 : ℤ) : ℚ) := Int.cast_lt.mpr h
    norm_num at this ⊢
    exact this
  unfold exactElapsedDays
  rw [abs_div, div_lt_iff₀ (by norm_num)]
  norm_num at h1 ⊢
  linarith

theorem abs_elapsed_days_sub_exact_le (current created_at : Int)
    (h : |current - created_at| < 2 ^ 53) :
    |elapsed_days current created_at - exactElapsedDays current created_at|
      ≤ (2 : ℚ) ^ (-27 : ℤ) := by
  rw [elapsed_days_eq_roundDouble _ _ h]
  have h1 := abs_roundDouble_sub_le (exactElapsedDays current created_at)
  have h2 := ulpExponent_le (exactElapsedDays current created_at) 26 (by norm_num)
    (abs_exactElapsedDays_lt _ _ h)
  have h3 : (2 : ℚ) ^ ulpExponent (exactElapsedDays current created_at)
      ≤ (2 : ℚ) ^ ((26 : ℤ) - 52) := zpow_le_zpow_right₀ (by norm_num) h2
  calc _ ≤ (2 : ℚ) ^ ulpExponent (exactElapsedDays current created_at) / 2 := h1
    _ ≤ (2 : ℚ) ^ ((26 : ℤ) - 52) / 2 := div_le_div_of_nonneg_right h3 (by norm_num)
    _ = (2 : ℚ) ^ (-27 : ℤ) := by norm_num

theorem elapsed_days_of_days (current created_at a : Int)
    (h : current - created_at = days a) (ha : |a| ≤ 10 ^ 8) :
    elapsed_days current created_at = a := by
  have ha2 := abs_le.mp ha
  have h1 : |days a| < 2 ^ 53 := by
    rw [abs_lt]; unfold days; constructor <;> omega
  have h2 : |a| < 2 ^ 53 := by
    rw [abs_lt]; constructor <;> omega
  have h3 : ((days a : Int) : ℚ) / (1000 * 3600 * 24) = (a : ℚ) := by
    unfold days
    push_cast
    field_simp
    left
    norm_num
  rw [elapsed_days, h, roundDouble_intCast _ h1, h3, roundDouble_intCast _ h2]

theorem elapsed_days_nonneg (current created_at : Int) (h : created_at ≤ current) :
    0 ≤ elapsed_days current created_at := by
  unfold elapsed_days
  apply roundDouble_nonneg
  apply div_nonneg
  · apply roundDouble_nonneg
    have : (0 : ℤ) ≤ current - created_at := by omega
    exact_mod_cast this
  · norm_num

theorem roundDouble_of_log (x : ℚ) (e : ℤ) (h0 : x ≠ 0) (he : -1022 ≤ e)
    (h1 : (2 : ℚ) ^ e ≤ |x|) (h2 : |x| < (2 : ℚ) ^ (e + 1)) :
    roundDouble x = (roundHalfEven (x / (2 : ℚ) ^ (e - 52)) : ℚ) * (2 : ℚ) ^ (e - 52) := by
  have hpos : 0 < |x| := abs_pos.mpr h0
  have hlo : e ≤ Int.log 2 |x| :=
    (Int.zpow_le_iff_le_log (R := ℚ) (b := 2) (by norm_num) hpos).mp (by exact_mod_cast h1)
  have hhi : Int.log 2 |x| < e + 1 :=
    (Int.lt_zpow_iff_log_lt (R := ℚ) (b := 2) (by norm_num) hpos).mp (by exact_mod_cast h2)
  have hu : ulpExponent x = e - 52 := by
    unfold ulpExponent
    have : Int.log 2 |x| = e := by omega
    rw [this, max_eq_left he]
  rw [roundDouble, if_neg h0, hu]

theorem roundHalfEven_of_gt (y : ℚ) (f : ℤ) (h1 : (f : ℚ) + 1 / 2 < y) (h2 : y < f + 1) :
    roundHalfEven y = f + 1 := by
  have hf : ⌊y⌋ = f := by
    rw [Int.floor_eq_iff]
    constructor <;> linarith
  unfold roundHalfEven
  rw [hf]
  have h3 : ¬ (y - f < 1 / 2) := by linarith
  have h4 : (1 : ℚ) / 2 < y - f := by linarith
  rw [if_neg h3, if_pos h4]

theorem roundDouble_one_tenth : roundDouble (1 / 10) = doubleTenth := by
  rw [roundDouble_of_log (1 / 10) (-4) (by norm_num) (by norm_num)
    (by rw [abs_of_pos] <;> norm_num) (by rw [abs_of_pos] <;> norm_num)]
  rw [roundHalfEven_of_gt _ 7205759403792793 (by norm_num) (by norm_num)]
  norm_num [doubleTenth]

theorem roundDouble_doubleTenth : roundDouble doubleTenth = doubleTenth := by
  have h : doubleTenth / (2 : ℚ) ^ ((-4 : ℤ) - 52) = ((7205759403792794 : ℤ) : ℚ) := by
    norm_num [doubleTenth]
  rw [roundDouble_of_log doubleTenth (-4) (by norm_num [doubleTenth]) (by norm_num)
    (by rw [abs_of_pos] <;> norm_num [doubleTenth])
    (by rw [abs_of_pos] <;> norm_num [doubleTenth]), h, roundHalfEven_intCast]
  norm_num [doubleTenth]

/-! ## Lemmas on the guard -/

theorem splice_append {α : Type} (arr : List α) (start : Int) :
    (splice arr start).1 ++ (splice arr start).2 = arr := by
  simp [splice]

theorem splice_neg {α : Type} (arr : List α) (k : Nat) :
    splice arr (-(k : Int))
      = if k = 0 then ([], arr)
        else (arr.take (arr.length - k), arr.drop (arr.length - k)) := by
  by_cases hk : k = 0
  · subst hk
    simp [splice]
  · have h1 : (-(k : Int)) < 0 := by omega
    have h2 : (max ((arr.length : Int) + -(k : Int)) 0).toNat = arr.length - k := by omega
    simp only [splice, h1, if_true, h2, hk, if_false]

theorem sortById_perm (runs : List Run) : (sortById runs).Perm runs :=
  List.perm_insertionSort _ runs

theorem sortById_sorted (runs : List Run) :
    (sortById runs).Sorted (fun a b => a.id ≤ b.id) := by
  haveI : IsTotal Run (fun a b => a.id ≤ b.id) := ⟨fun a b => Nat.le_total a.id b.id⟩
  haveI : IsTrans Run (fun a b => a.id ≤ b.id) := ⟨fun _ _ _ h1 h2 => Nat.le_trans h1 h2⟩
  exact List.sorted_insertionSort _ runs

theorem applyGuard_of_le (k : Nat) (p : List Run × List Run) (h : p.1.length ≤ k) :
    applyGuard k p = p := by
  have : ¬ p.1.length > k := by omega
  simp [applyGuard, this]

theorem applyGuard_of_gt (k : Nat) (p : List Run × List Run) (h : p.1.length > k) :
    applyGuard k p
      = ((splice (sortById p.1) (-(k : Int))).1, p.2 ++ (splice (sortById p.1) (-(k : Int))).2) := by
  simp [applyGuard, h]

theorem applyGuard_perm (k : Nat) (p : List Run × List Run) :
    ((applyGuard k p).1 ++ (applyGuard k p).2).Perm (p.1 ++ p.2) := by
  by_cases h : p.1.length > k
  · rw [applyGuard_of_gt k p h]
    have h1 := splice_append (sortById p.1) (-(k : Int))
    generalize splice (sortById p.1) (-(k : Int)) = r at h1
    show (r.1 ++ (p.2 ++ r.2)).Perm (p.1 ++ p.2)
    have h2 : (r.1 ++ (p.2 ++ r.2)).Perm ((r.1 ++ r.2) ++ p.2) := by
      rw [List.append_assoc]
      exact List.Perm.append_left _ List.perm_append_comm
    rw [h1] at h2
    exact h2.trans ((sortById_perm p.1).append_right _)
  · rw [applyGuard_of_le k p (by omega)]

theorem applyGuard_fst_sublist (k : Nat) (p : List Run × List Run) :
    (applyGuard k p).1 = p.1 ∨ List.Sublist (applyGuard k p).1 (sortById p.1) := by
  by_cases h : p.1.length > k
  · right
    rw [applyGuard_of_gt k p h]
    simp only [splice]
    exact List.take_sublist _ _
  · left
    rw [applyGuard_of_le k p (by omega)]

theorem applyGuard_fst_subperm (k : Nat) (p : List Run × List Run) :
    (applyGuard k p).1.Subperm p.1 := by
  rcases applyGuard_fst_sublist k p with h | h
  · rw [h]
  · exact h.subperm.trans (sortById_perm p.1).subperm

theorem applyGuard_keeps_skipped (k : Nat) (p : List Run × List Run) :
    p.2 <+: (applyGuard k p).2 := by
  by_cases h : p.1.length > k
  · rw [applyGuard_of_gt k p h]
    exact List.prefix_append _ _
  · rw [applyGuard_of_le k p (by omega)]

/-! ## Membership in the classification and in the result -/

theorem filterRuns_perm (clock : Nat → Int) (runs : List Run) (options : Options) :
    ((filterRuns clock runs options).1 ++ (filterRuns clock runs options).2).Perm runs := by
  unfold filterRuns
  refine (applyGuard_perm _ _).trans ?_
  rw [classify_eq]
  exact candidatesFrom_append_keptFrom_perm options clock runs 0

theorem arrayIncludes_eq_true_iff (xs : List JSString) (v : Option JSString) :
    arrayIncludes xs v = true ↔ ∃ b, v = some b ∧ b ∈ xs := by
  cases v with
  | none => simp [arrayIncludes]
  | some c => simp [arrayIncludes]

theorem shouldSkip_eq_true_iff (options : Options) (r : Run) :
    shouldSkip options r = true ↔
      (r.status ≠ "completed".toList
      ∨ (options.check_pullrequest_exist = true ∧ r.pull_requests.length > 0)
      ∨ (options.check_branch_existence = true
          ∧ ∃ b, r.head_branch = some b ∧ b ∈ options.branchNames)
      ∨ (options.delete_run_by_conclusion_pattern ≠ []
          ∧ ∀ c, r.conclusion = some c →
              c ∉ (split ',' options.delete_run_by_conclusion_pattern).map trim)) := by
  have h4 : (arrayIncludes ((split ',' options.delete_run_by_conclusion_pattern).map trim)
        r.conclusion = false) ↔ ∀ c, r.conclusion = some c →
              c ∉ (split ',' options.delete_run_by_conclusion_pattern).map trim := by
    rw [← Bool.not_eq_true, arrayIncludes_eq_true_iff]
    constructor
    · intro h c hc hmem
      exact h ⟨c, hc, hmem⟩
    · rintro h ⟨c, hc, hmem⟩
      exact h c hc hmem
  unfold shouldSkip
  simp only [Bool.or_eq_true, Bool.and_eq_true, bne_iff_ne, ne_eq, decide_eq_true_eq,
    Bool.not_eq_true', arrayIncludes_eq_true_iff, List.isEmpty_eq_false, h4, or_assoc,
    List.isEmpty_iff]

theorem mem_filterRuns_fst (clock : Nat → Int) (runs : List Run) (options : Options) (r : Run)
    (h : r ∈ (filterRuns clock runs options).1) :
    r ∈ (classify options clock runs).1 := by
  unfold filterRuns at h
  exact (applyGuard_fst_subperm _ _).subset h

theorem mem_classify_fst (clock : Nat → Int) (runs : List Run) (options : Options) (r : Run) :
    r ∈ (classify options clock runs).1 ↔
      ∃ j, runs[j]? = some r ∧ shouldSkip options r = false
        ∧ elapsed_days (clock j) r.created_at ≥ options.retain_days := by
  rw [classify_eq]
  simp only [mem_candidatesFrom, Nat.zero_add, isCandidateAt, Bool.and_eq_true,
    Bool.not_eq_true', decide_eq_true_eq]

theorem mem_classify_snd (clock : Nat → Int) (runs : List Run) (options : Options) (r : Run) :
    r ∈ (classify options clock runs).2 ↔
      ∃ j, runs[j]? = some r ∧ (shouldSkip options r = true
        ∨ ¬ elapsed_days (clock j) r.created_at ≥ options.retain_days) := by
  rw [classify_eq]
  simp only [mem_keptFrom, Nat.zero_add, isCandidateAt, Bool.and_eq_false_iff,
    Bool.not_eq_false', decide_eq_false_iff_not]

/-! ## Properties of `filterRuns` -/

/-- C1: `del_runs` and `skip_runs` returned by `filterRuns` partition the
input: `del_runs ++ skip_runs` is a permutation of `runs`, every run occurs
in the two lists together exactly as often as in the input, and when the
input has no repeated run no run is in both lists. -/
theorem filterRuns_partition (clock : Nat → Int) (runs : List Run) (options : Options) :
    ((filterRuns clock runs options).1 ++ (filterRuns clock runs options).2).Perm runs
    ∧ (∀ r, (filterRuns clock runs options).1.count r
          + (filterRuns clock runs options).2.count r = runs.count r)
    ∧ (∀ r, r ∈ runs ↔
          (r ∈ (filterRuns clock runs options).1 ∨ r ∈ (filterRuns clock runs options).2))
    ∧ (runs.Nodup → ∀ r, ¬ (r ∈ (filterRuns clock runs options).1
          ∧ r ∈ (filterRuns clock runs options).2)) := by
  have hp := filterRuns_perm clock runs options
  refine ⟨hp, ?_, ?_, ?_⟩
  · intro r
    rw [← List.count_append]
    exact hp.count_eq r
  · intro r
    rw [← List.mem_append]
    exact (hp.mem_iff).symm
  · intro hnd r hr
    have hnd2 := (hp.nodup_iff).mpr hnd
    exact (List.disjoint_of_nodup_append hnd2) hr.1 hr.2

/-- C4: a run of the input that satisfies one of the four skip predicates
is in `skip_runs` and not in `del_runs`, whatever `created_at`,
`retain_days`, `keep_minimum_runs` and the clock are; with the pattern
`failure,cancelled` a completed run with conclusion `success` is skipped,
and a run whose status is not `completed` is never in `del_runs`. -/
theorem skip_predicates_unconditional (clock : Nat → Int) (runs : List Run)
    (options : Options) :
    (∀ r ∈ runs,
        (r.status ≠ "completed".toList
          ∨ (options.check_pullrequest_exist = true ∧ r.pull_requests.length > 0)
          ∨ (options.check_branch_existence = true
              ∧ ∃ b, r.head_branch = some b ∧ b ∈ options.branchNames)
          ∨ (options.delete_run_by_conclusion_pattern ≠ []
              ∧ ∀ c, r.conclusion = some c →
                  c ∉ (split ',' options.delete_run_by_conclusion_pattern).map trim)) →
        r ∈ (filterRuns clock runs options).2 ∧ r ∉ (filterRuns clock runs options).1)
    ∧ (options.delete_run_by_conclusion_pattern = "failure,cancelled".toList →
        ∀ r ∈ runs, r.conclusion = some "success".toList →
          r ∈ (filterRuns clock runs options).2 ∧ r ∉ (filterRuns clock runs options).1)
    ∧ (∀ r, r.status ≠ "completed".toList → r ∉ (filterRuns clock runs options).1) := by
  have key : ∀ r, shouldSkip options r = true → r ∉ (filterRuns clock runs options).1 := by
    intro r hs hmem
    have h1 := mem_filterRuns_fst clock runs options r hmem
    rw [mem_classify_fst] at h1
    obtain ⟨j, _, h2, _⟩ := h1
    rw [hs] at h2
    exact absurd h2 (by decide)
  have key2 : ∀ r ∈ runs, shouldSkip options r = true →
      r ∈ (filterRuns clock runs options).2 ∧ r ∉ (filterRuns clock runs options).1 := by
    intro r hr hs
    have h1 := key r hs
    have h2 := ((filterRuns_perm clock runs options).mem_iff).mpr hr
    rw [List.mem_append] at h2
    rcases h2 with h2 | h2
    · exact absurd h2 h1
    · exact ⟨h2, h1⟩
  refine ⟨?_, ?_, ?_⟩
  · intro r hr h
    exact key2 r hr ((shouldSkip_eq_true_iff options r).mpr h)
  · intro hpat r hr hc
    apply key2 r hr
    rw [shouldSkip_eq_true_iff]
    right; right; right
    rw [hpat]
    refine ⟨by decide, ?_⟩
    intro c hc2
    rw [hc] at hc2
    cases hc2
    decide
  · intro r hs
    exact key r ((shouldSkip_eq_true_iff options r).mpr (Or.inl hs))

theorem mem_classify_const_fst (options : Options) (now : Int) (runs : List Run) (r : Run) :
    r ∈ (classify options (fun _ => now) runs).1 ↔
      r ∈ runs ∧ shouldSkip options r = false
        ∧ elapsed_days now r.created_at ≥ options.retain_days := by
  rw [classify_const]
  simp [isCandidateAt]

theorem mem_classify_const_snd (options : Options) (now : Int) (runs : List Run) (r : Run) :
    r ∈ (classify options (fun _ => now) runs).2 ↔
      r ∈ runs ∧ (shouldSkip options r = true
        ∨ elapsed_days now r.created_at < options.retain_days) := by
  rw [classify_const]
  simp [isCandidateAt]

/-- C5, as the claim states it, fails.  With `retain_days` the binary64
number `Number("0.1")`, `keep_minimum_runs = 1` and two completed runs
created 8640000 ms before `now`, the elapsed time measured exactly is `1/10`
day, strictly below `retain_days`; the quotient computed in binary64
arithmetic is `Number("0.1")` itself, the classification pass makes both
runs deletion candidates, and `filterRuns` returns run 1 in `del_runs`. -/
theorem age_boundary_exact_fails :
    roundDouble (1 / 10) = doubleTenth
    ∧ roundDouble doubleTenth = doubleTenth
    ∧ shouldSkip (sampleOptions doubleTenth 1) (sampleRun 1 0) = false
    ∧ exactElapsedDays 8640000 0 < (sampleOptions doubleTenth 1).retain_days
    ∧ elapsed_days 8640000 0 = doubleTenth
    ∧ sampleRun 1 0
        ∈ (classify (sampleOptions doubleTenth 1) (fun _ => 8640000)
            [sampleRun 1 0, sampleRun 2 0]).1
    ∧ filterRuns (fun _ => 8640000) [sampleRun 1 0, sampleRun 2 0]
          (sampleOptions doubleTenth 1)
        = ([sampleRun 1 0], [sampleRun 2 0])
    ∧ ¬ (sampleRun 1 0
          ∈ (classify (sampleOptions doubleTenth 1) (fun _ => 8640000)
              [sampleRun 1 0, sampleRun 2 0]).1
        ↔ exactElapsedDays 8640000 0 ≥ (sampleOptions doubleTenth 1).retain_days) := by
  have hex : exactElapsedDays 8640000 0 = 1 / 10 := by
    norm_num [exactElapsedDays]
  have hlt : exactElapsedDays 8640000 0 < (sampleOptions doubleTenth 1).retain_days := by
    rw [hex]
    norm_num [sampleOptions, doubleTenth]
  have hel : elapsed_days 8640000 0 = doubleTenth := by
    rw [elapsed_days_eq_roundDouble _ _ (by norm_num), hex, roundDouble_one_tenth]
  have hc : ∀ r ∈ [sampleRun 1 0, sampleRun 2 0],
      isCandidateAt (sampleOptions doubleTenth 1) 8640000 r = true := by
    intro r hr
    simp only [List.mem_cons, List.mem_singleton, List.not_mem_nil, or_false] at hr
    rcases hr with rfl | rfl <;>
      · have hs : ∀ id, shouldSkip (sampleOptions doubleTenth 1) (sampleRun id 0) = false :=
          fun _ => rfl
        have he : ∀ id, elapsed_days 8640000 (sampleRun id 0).created_at
            ≥ (sampleOptions doubleTenth 1).retain_days := by
          intro id
          show elapsed_days 8640000 0 ≥ doubleTenth
          rw [hel]
        simp only [isCandidateAt, hs, he, Bool.not_false, Bool.true_and, decide_True]
  have hf : [sampleRun 1 0, sampleRun 2 0].filter
      (isCandidateAt (sampleOptions doubleTenth 1) 8640000)
        = [sampleRun 1 0, sampleRun 2 0] := List.filter_eq_self.mpr hc
  have hk : [sampleRun 1 0, sampleRun 2 0].filter
      (fun r => !isCandidateAt (sampleOptions doubleTenth 1) 8640000 r) = [] := by
    rw [List.filter_eq_nil_iff]
    intro r hr
    rw [hc r hr]
    decide
  have hmem : sampleRun 1 0
      ∈ (classify (sampleOptions doubleTenth 1) (fun _ => 8640000)
          [sampleRun 1 0, sampleRun 2 0]).1 := by
    rw [classify_const, hf]
    exact List.mem_cons_self _ _
  have hfr : filterRuns (fun _ => 8640000) [sampleRun 1 0, sampleRun 2 0]
      (sampleOptions doubleTenth 1) = ([sampleRun 1 0], [sampleRun 2 0]) := by
    rw [filterRuns_const, hf, hk]
    decide
  refine ⟨roundDouble_one_tenth, roundDouble_doubleTenth, rfl, hlt, hel, hmem, hfr, ?_⟩
  intro h
  exact absurd (h.mp hmem) (not_le.mpr hlt)

/-- C5, amended: with the clock fixed at `now`, and `elapsed_days` the
number the code computes (for `now - created_at` below `2^53` ms in
absolute value, the binary64 number nearest to the exact elapsed days,
within `2^-27` day of it, and equal to `n` for a whole number `n` of 24-hour
days), a run of the input that satisfies no skip predicate is a deletion
candidate of the classification pass iff `elapsed_days >= retain_days`, and
is in the provisional `skip_runs` iff `elapsed_days < retain_days`.  The
boundary is inclusive: a run whose exact elapsed time equals the binary64
number `retain_days` is a candidate, and a run one millisecond younger than
the boundary is skipped.  With `retain_days = 0` every such run created at
or before `now` is a candidate. -/
theorem age_boundary (options : Options) (now : Int) (runs : List Run) :
    (∀ (c n : Int), |n| ≤ 10 ^ 8 → elapsed_days (c + days n) c = n)
    ∧ (∀ c : Int, |now - c| < 2 ^ 53 →
        elapsed_days now c = roundDouble (exactElapsedDays now c)
        ∧ |elapsed_days now c - exactElapsedDays now c| ≤ (2 : ℚ) ^ (-27 : ℤ))
    ∧ (∀ r ∈ runs, shouldSkip options r = false →
        (r ∈ (classify options (fun _ => now) runs).1 ↔
            elapsed_days now r.created_at ≥ options.retain_days)
        ∧ (r ∈ (classify options (fun _ => now) runs).2 ↔
            elapsed_days now r.created_at < options.retain_days))
    ∧ (roundDouble options.retain_days = options.retain_days →
        ∀ r ∈ runs, shouldSkip options r = false → |now - r.created_at| < 2 ^ 53 →
        exactElapsedDays now r.created_at = options.retain_days →
        r ∈ (classify options (fun _ => now) runs).1)
    ∧ (∀ r ∈ runs, shouldSkip options r = false → |now - r.created_at| < 2 ^ 53 →
        exactElapsedDays now (r.created_at - 1) = options.retain_days →
        r ∈ (classify options (fun _ => now) runs).2
          ∧ r ∉ (classify options (fun _ => now) runs).1)
    ∧ (options.retain_days = 0 → ∀ r ∈ runs, shouldSkip options r = false →
        r.created_at ≤ now → r ∈ (classify options (fun _ => now) runs).1) := by
  refine ⟨?_, ?_, ?_, ?_, ?_, ?_⟩
  · intro c n hn
    exact elapsed_days_of_days _ _ n (by omega) hn
  · intro c hc
    exact ⟨elapsed_days_eq_roundDouble _ _ hc, abs_elapsed_days_sub_exact_le _ _ hc⟩
  · intro r hr hs
    rw [mem_classify_const_fst, mem_classify_const_snd]
    constructor
    · exact ⟨fun h => h.2.2, fun h => ⟨hr, hs, h⟩⟩
    · constructor
      · rintro ⟨_, h | h⟩
        · rw [hs] at h; exact absurd h (by decide)
        · exact h
      · intro h; exact ⟨hr, Or.inr h⟩
  · intro hd r hr hs hrange he
    rw [mem_classify_const_fst]
    refine ⟨hr, hs, ?_⟩
    rw [elapsed_days_eq_roundDouble _ _ hrange, he, hd]
  · intro r hr hs hrange he
    have h1 : elapsed_days now r.created_at < options.retain_days := by
      have h2 := (abs_le.mp (abs_elapsed_days_sub_exact_le now r.created_at hrange)).2
      have h3 : exactElapsedDays now r.created_at
          = options.retain_days - 1 / 86400000 := by
        rw [← he]
        unfold exactElapsedDays
        push_cast
        ring
      have h4 : (2 : ℚ) ^ (-27 : ℤ) < 1 / 86400000 := by norm_num
      generalize (2 : ℚ) ^ (-27 : ℤ) = t at h2 h4
      linarith
    rw [mem_classify_const_fst, mem_classify_const_snd]
    exact ⟨⟨hr, Or.inr h1⟩, fun h => absurd h.2.2 (not_le.mpr h1)⟩
  · intro h0 r hr hs hc
    rw [mem_classify_const_fst, h0]
    exact ⟨hr, hs, elapsed_days_nonneg now r.created_at hc⟩

/-- C6: the guard only moves runs from the provisional delete set to skip.
Every run of the final `del_runs` is a deletion candidate of the
classification pass (no skip predicate holds and, at the clock reading of
its loop iteration, `elapsed_days >= retain_days`); the final `del_runs` is
a sub-multiset of the provisional one; the provisional `skip_runs` is a
prefix of the final `skip_runs`; and when the number of candidates is at
most `keep_minimum_runs` the guard changes nothing. -/
theorem guard_only_moves_to_skip (clock : Nat → Int) (runs : List Run) (options : Options) :
    (∀ r ∈ (filterRuns clock runs options).1,
        r ∈ (classify options clock runs).1 ∧ shouldSkip options r = false
          ∧ ∃ j, runs[j]? = some r
              ∧ elapsed_days (clock j) r.created_at ≥ options.retain_days)
    ∧ (filterRuns clock runs options).1.Subperm (classify options clock runs).1
    ∧ (classify options clock runs).2 <+: (filterRuns clock runs options).2
    ∧ (∀ r ∈ (classify options clock runs).2, r ∈ (filterRuns clock runs options).2)
    ∧ ((classify options clock runs).1.length ≤ options.keep_minimum_runs →
        filterRuns clock runs options = classify options clock runs) := by
  refine ⟨?_, ?_, ?_, ?_, ?_⟩
  · intro r hr
    have h1 := mem_filterRuns_fst clock runs options r hr
    refine ⟨h1, ?_⟩
    rw [mem_classify_fst] at h1
    obtain ⟨j, hj, hs, he⟩ := h1
    exact ⟨hs, j, hj, he⟩
  · exact applyGuard_fst_subperm _ _
  · exact applyGuard_keeps_skipped _ _
  · intro r hr
    exact (applyGuard_keeps_skipped _ _).subset hr
  · intro h
    exact applyGuard_of_le _ _ h


/-! ## Orphan runs -/

theorem mem_orphanRuns (workflows : List Workflow) (all_runs : List Run) (r : Run) :
    r ∈ orphanRuns workflows all_runs ↔
      r ∈ all_runs ∧ r.workflow_id ∉ workflows.map (fun w => w.id) := by
  simp [orphanRuns]

/-- C9: the orphans are exactly the runs of `all_runs` whose `workflow_id`
is not the id of a workflow of the unfiltered catalog; for all inputs
(whatever `keep_minimum_runs`, `retain_days` and the workflow patterns are)
`run` calls `deleteRun` for every orphan, right after the count line and
before any workflow is processed; and a run whose workflow is in the
catalog is not an orphan, whether or not the catalog filter keeps that
workflow. -/
theorem orphan_detection_and_bypass (toUpperCase : JSString → JSString) (inputs : Inputs)
    (api : Listings) (clock : Nat → Nat → Int) :
    (∀ r, r ∈ orphanRuns api.workflows api.all_runs ↔
        r ∈ api.all_runs ∧ ∀ w ∈ api.workflows, w.id ≠ r.workflow_id)
    ∧ (∃ rest, run toUpperCase inputs api clock
        = Event.orphanCount (orphanRuns api.workflows api.all_runs).length
          :: (orphanRuns api.workflows api.all_runs).map
                (fun del => Event.deleteRun inputs.dry_run del.id del.name)
          ++ rest)
    ∧ (∀ r ∈ api.all_runs, (∀ w ∈ api.workflows, w.id ≠ r.workflow_id) →
        Event.deleteRun inputs.dry_run r.id r.name ∈ run toUpperCase inputs api clock)
    ∧ (∀ w ∈ api.workflows, ∀ r, r.workflow_id = w.id →
        r ∉ orphanRuns api.workflows api.all_runs) := by
  have h1 : ∀ r, r ∈ orphanRuns api.workflows api.all_runs ↔
      r ∈ api.all_runs ∧ ∀ w ∈ api.workflows, w.id ≠ r.workflow_id := by
    intro r
    rw [mem_orphanRuns]
    simp only [List.mem_map, not_exists, not_and]
  refine ⟨h1, ⟨_, rfl⟩, ?_, ?_⟩
  · intro r hr hw
    have h2 : r ∈ orphanRuns api.workflows api.all_runs := (h1 r).mpr ⟨hr, hw⟩
    unfold run
    simp only [List.mem_cons, List.mem_append, List.mem_map]
    left; right
    exact ⟨r, h2, rfl⟩
  · intro w hw r hr hmem
    exact ((h1 r).mp hmem).2 w hw hr.symm

/-! ## String operations -/

theorem includes_iff_infix (s pat : JSString) : includes s pat = true ↔ pat <:+: s := by
  induction s with
  | nil =>
    cases pat with
    | nil => simp [includes]
    | cons c pat => simp [includes, List.isPrefixOf]
  | cons c s ih =>
    rw [includes, Bool.or_eq_true, ih, List.infix_cons_iff, List.isPrefixOf_iff_prefix]

theorem replaceFirst_of_not_infix (pat : JSString) (s : JSString) (h : ¬ pat <:+: s) :
    replaceFirst pat s = s := by
  induction s with
  | nil => rfl
  | cons c s ih =>
    rw [List.infix_cons_iff, not_or] at h
    have h1 : pat.isPrefixOf (c :: s) = false := by
      rw [← Bool.not_eq_true, List.isPrefixOf_iff_prefix]
      exact h.1
    rw [replaceFirst, h1]
    simp [ih h.2]

theorem replaceFirst_leading (pat : JSString) (post : JSString) (hne : pat ≠ []) :
    replaceFirst pat (pat ++ post) = post := by
  cases pat with
  | nil => exact absurd rfl hne
  | cons c pat =>
    have h1 : (c :: pat).isPrefixOf (c :: pat ++ post) = true := by
      rw [List.isPrefixOf_iff_prefix]
      exact List.prefix_append _ _
    show replaceFirst (c :: pat) (c :: (pat ++ post)) = post
    rw [replaceFirst]
    rw [show c :: (pat ++ post) = c :: pat ++ post from rfl, h1]
    simp

theorem replaceFirst_first_occurrence (pat pre post : JSString) (hne : pat ≠ [])
    (h : ¬ pat <:+: pre ++ pat.dropLast) :
    replaceFirst pat (pre ++ pat ++ post) = pre ++ post := by
  induction pre with
  | nil => simpa using replaceFirst_leading pat post hne
  | cons c pre ih =>
    have hlen : pat.length ≤ (c :: pre ++ pat.dropLast).length := by
      have : 0 < pat.length := List.length_pos.mpr hne
      simp only [List.length_append, List.length_cons, List.length_dropLast]
      omega
    have h1 : (pat.isPrefixOf (c :: (pre ++ pat ++ post))) = false := by
      rw [← Bool.not_eq_true, List.isPrefixOf_iff_prefix]
      intro hp
      apply h
      have h2 : pat <+: (c :: pre ++ pat.dropLast) ++ ([pat.getLast hne] ++ post) := by
        have e : (c :: pre ++ pat.dropLast) ++ ([pat.getLast hne] ++ post)
            = c :: (pre ++ pat ++ post) := by
          have := List.dropLast_append_getLast hne
          calc (c :: pre ++ pat.dropLast) ++ ([pat.getLast hne] ++ post)
              = c :: (pre ++ (pat.dropLast ++ [pat.getLast hne]) ++ post) := by simp
            _ = c :: (pre ++ pat ++ post) := by rw [this]
        rw [e]; exact hp
      exact (List.prefix_of_prefix_length_le h2 (List.prefix_append _ _) hlen).isInfix
    have h3 : ¬ pat <:+: pre ++ pat.dropLast := by
      intro hi
      apply h
      exact List.infix_cons hi
    show replaceFirst pat (c :: (pre ++ pat ++ post)) = c :: (pre ++ post)
    rw [replaceFirst, h1, ih h3]
    simp

theorem split_ne_nil (sep : Char) (s : JSString) : split sep s ≠ [] := by
  induction s with
  | nil => simp [split]
  | cons c s ih =>
    rw [split]
    split_ifs
    · simp
    · cases h : split sep s with
      | nil => exact absurd h ih
      | cons seg segs => simp

theorem split_of_not_mem (sep : Char) (s : JSString) (h : sep ∉ s) : split sep s = [s] := by
  induction s with
  | nil => rfl
  | cons c s ih =>
    rw [List.mem_cons, not_or] at h
    have hc : ¬ c = sep := fun e => h.1 e.symm
    rw [split, if_neg hc, ih h.2]

theorem intercalate_split (sep : Char) (s : JSString) :
    [sep].intercalate (split sep s) = s := by
  induction s with
  | nil => simp [split, List.intercalate]
  | cons c s ih =>
    rw [split]
    split_ifs with hc
    · cases h : split sep s with
      | nil => exact absurd h (split_ne_nil sep s)
      | cons seg segs =>
        rw [h] at ih
        rw [← ih, hc]
        simp [List.intercalate, List.intersperse]
    · cases h : split sep s with
      | nil => exact absurd h (split_ne_nil sep s)
      | cons seg segs =>
        rw [h] at ih
        rw [← ih]
        cases segs <;> simp [List.intercalate, List.intersperse]

theorem not_mem_of_mem_split (sep : Char) (s : JSString) :
    ∀ seg ∈ split sep s, sep ∉ seg := by
  induction s with
  | nil => simp [split]
  | cons c s ih =>
    rw [split]
    split_ifs with hc
    · intro seg hseg
      rw [List.mem_cons] at hseg
      rcases hseg with h | h
      · subst h; simp
      · exact ih seg h
    · cases h : split sep s with
      | nil => exact absurd h (split_ne_nil sep s)
      | cons seg0 segs =>
        rw [h] at ih
        intro seg hseg
        rw [List.mem_cons] at hseg
        rcases hseg with h2 | h2
        · subst h2
          rw [List.mem_cons, not_or]
          exact ⟨fun e => hc e.symm, ih seg0 (List.mem_cons_self _ _)⟩
        · exact ih seg (List.mem_cons_of_mem _ h2)

theorem getLast?_split_append (sep : Char) (pre s : JSString) :
    (split sep (pre ++ sep :: s)).getLast? = (split sep s).getLast? := by
  induction pre with
  | nil =>
    show (split sep (sep :: s)).getLast? = _
    rw [split, if_pos rfl]
    cases h : split sep s with
    | nil => exact absurd h (split_ne_nil sep s)
    | cons seg segs => simp [List.getLast?_cons_cons]
  | cons c pre ih =>
    show (split sep (c :: (pre ++ sep :: s))).getLast? = _
    rw [split]
    split_ifs with hc
    · cases h : split sep (pre ++ sep :: s) with
      | nil => exact absurd h (split_ne_nil sep _)
      | cons seg segs =>
        rw [← ih, h]
        simp [List.getLast?_cons_cons]
    · cases h : split sep (pre ++ sep :: s) with
      | nil => exact absurd h (split_ne_nil sep _)
      | cons seg segs =>
        rw [← ih, h]
        cases segs with
        | nil =>
          exfalso
          have h1 := intercalate_split sep (pre ++ sep :: s)
          rw [h] at h1
          have h2 := not_mem_of_mem_split sep (pre ++ sep :: s) seg (by rw [h]; simp)
          simp [List.intercalate, List.intersperse] at h1
          rw [h1] at h2
          simp at h2
        | cons seg2 segs => simp [List.getLast?_cons_cons]

theorem specFilename_dir_append (dir file : JSString) (h : '/' ∉ file) :
    specFilename (dir ++ '/' :: file) = file := by
  rw [specFilename, getLast?_split_append, split_of_not_mem _ _ h]
  rfl

/-! ## Workflow catalog filter -/

/-- C7, as the claim states it, fails: for a workflow named
`pages-build-deployment` with path `dynamic/pages/pages-build-deployment`
and the pattern `dynamic`, `filterWorkflowsByPattern` keeps the workflow
(the literal `.github/workflows/` does not occur in the path, so the
filename is the whole path), while the filter with the filename taken after
the last directory separator drops it. -/
theorem filterWorkflowsByPattern_not_basename :
    filterWorkflowsByPattern
        [{ id := 1, name := "pages-build-deployment".toList,
           path := "dynamic/pages/pages-build-deployment".toList,
           state := "active".toList }] "dynamic".toList
      = [{ id := 1, name := "pages-build-deployment".toList,
           path := "dynamic/pages/pages-build-deployment".toList,
           state := "active".toList }]
    ∧ specFilterWorkflowsByPattern
        [{ id := 1, name := "pages-build-deployment".toList,
           path := "dynamic/pages/pages-build-deployment".toList,
           state := "active".toList }] "dynamic".toList
      = []
    ∧ filterWorkflowsByPattern
        [{ id := 1, name := "pages-build-deployment".toList,
           path := "dynamic/pages/pages-build-deployment".toList,
           state := "active".toList }] "dynamic".toList
      ≠ specFilterWorkflowsByPattern
        [{ id := 1, name := "pages-build-deployment".toList,
           path := "dynamic/pages/pages-build-deployment".toList,
           state := "active".toList }] "dynamic".toList := by
  decide

/-- C7, amended: `filterWorkflowsByPattern` returns, in their original
order, exactly the workflows whose name contains the pattern as a substring
or whose filename contains it, where the filename is `path` with the first
occurrence of the literal `.github/workflows/` removed: `path` itself when
the literal does not occur in it, and `pre ++ post` when `path` is
`pre ++ ".github/workflows/" ++ post` with no earlier occurrence.  For a
path `.github/workflows/` followed by a file name without `/` this is the
part of the path after its last directory separator. -/
theorem filterWorkflowsByPattern_spec (workflows : List Workflow) (pattern : JSString) :
    filterWorkflowsByPattern workflows pattern
      = workflows.filter (fun w => decide
          (pattern <:+: w.name ∨ pattern <:+: replaceFirst workflowsDir w.path))
    ∧ List.Sublist (filterWorkflowsByPattern workflows pattern) workflows
    ∧ (∀ path, ¬ workflowsDir <:+: path → replaceFirst workflowsDir path = path)
    ∧ (∀ pre post, ¬ workflowsDir <:+: pre ++ workflowsDir.dropLast →
        replaceFirst workflowsDir (pre ++ workflowsDir ++ post) = pre ++ post)
    ∧ (∀ file, '/' ∉ file →
        replaceFirst workflowsDir (workflowsDir ++ file) = file
          ∧ specFilename (workflowsDir ++ file) = file) := by
  have hne : workflowsDir ≠ [] := by decide
  refine ⟨?_, List.filter_sublist _, ?_, ?_, ?_⟩
  · unfold filterWorkflowsByPattern
    apply List.filter_congr
    intro w _
    simp only [List.any_cons, List.any_nil, Bool.or_false]
    rw [Bool.eq_iff_iff]
    simp only [Bool.or_eq_true, includes_iff_infix, decide_eq_true_eq]
  · intro path h
    exact replaceFirst_of_not_infix _ _ h
  · intro pre post h
    exact replaceFirst_first_occurrence _ _ _ hne h
  · intro file h
    refine ⟨replaceFirst_leading _ _ hne, ?_⟩
    have e : workflowsDir ++ file = ".github/workflows".toList ++ '/' :: file := by
      simp [workflowsDir]
    rw [e]
    exact specFilename_dir_append _ _ h

/-- C8: when the state pattern is empty or its upper-casing is `ALL` the
state step returns the workflow list unchanged; otherwise it returns, in
their original order, exactly the workflows whose state is one of the
entries obtained by splitting the pattern on commas and trimming each
entry.  Applied after the name step, the result is the intersection of the
two filters: a sublist of the catalog that holds a workflow iff both steps
keep it. -/
theorem state_filter_step (toUpperCase : JSString → JSString) (workflows : List Workflow)
    (namePattern statePattern : JSString) :
    ((statePattern = [] ∨ toUpperCase statePattern = "ALL".toList) →
        applyStatePattern toUpperCase workflows statePattern = workflows)
    ∧ (statePattern ≠ [] → toUpperCase statePattern ≠ "ALL".toList →
        applyStatePattern toUpperCase workflows statePattern
          = workflows.filter
              (fun w => decide (w.state ∈ (split ',' statePattern).map trim)))
    ∧ filterWorkflows toUpperCase workflows namePattern statePattern
        = workflows.filter (fun w =>
            decide (w ∈ applyNamePattern workflows namePattern)
              && decide (w ∈ applyStatePattern toUpperCase workflows statePattern))
    ∧ (∀ w, w ∈ filterWorkflows toUpperCase workflows namePattern statePattern ↔
        w ∈ applyNamePattern workflows namePattern
          ∧ w ∈ applyStatePattern toUpperCase workflows statePattern)
    ∧ List.Sublist (filterWorkflows toUpperCase workflows namePattern statePattern)
        workflows := by
  have hn : ∃ p : Workflow → Bool, applyNamePattern workflows namePattern
      = workflows.filter p := by
    unfold applyNamePattern
    split_ifs
    · exact ⟨_, rfl⟩
    · exact ⟨fun _ => true, by simp⟩
  have hs : ∃ p : Workflow → Bool, ∀ ws : List Workflow,
      applyStatePattern toUpperCase ws statePattern = ws.filter p := by
    unfold applyStatePattern
    split_ifs
    · exact ⟨_, fun ws => rfl⟩
    · exact ⟨fun _ => true, fun ws => by simp⟩
  obtain ⟨pn, hpn⟩ := hn
  obtain ⟨ps, hps⟩ := hs
  have hfw : filterWorkflows toUpperCase workflows namePattern statePattern
      = workflows.filter (fun w => pn w && ps w) := by
    rw [filterWorkflows, hps, hpn, List.filter_filter]
    apply List.filter_congr
    intro w _
    exact Bool.and_comm _ _
  refine ⟨?_, ?_, ?_, ?_, ?_⟩
  · intro h
    unfold applyStatePattern
    rcases h with h | h
    · simp [h]
    · simp [h]
  · intro h1 h2
    unfold applyStatePattern filterWorkflowsByState
    have h3 : statePattern.isEmpty = false := by
      cases statePattern with
      | nil => exact absurd rfl h1
      | cons _ _ => rfl
    have h4 : (toUpperCase statePattern != "ALL".toList) = true := by
      rw [bne_iff_ne]; exact h2
    rw [h3, h4]
    simp only [Bool.not_false, Bool.and_self, if_true]
    apply List.filter_congr
    intro w _
    rw [Bool.eq_iff_iff]
    simp
  · rw [hfw, hpn, hps]
    apply List.filter_congr
    intro w hw
    rw [Bool.eq_iff_iff]
    simp only [Bool.and_eq_true, decide_eq_true_eq, List.mem_filter, hw, true_and]
  · intro w
    rw [hfw, hpn, hps]
    simp only [List.mem_filter, Bool.and_eq_true]
    tauto
  · rw [hfw]
    exact List.filter_sublist _

/-! ## The minimum-retention guard -/

theorem eq_of_perm_of_map_id_eq (s : List Run) :
    ∀ l : List Run, l.Perm s → l.map (fun r => r.id) = s.map (fun r => r.id) →
      (s.map (fun r => r.id)).Nodup → l = s := by
  induction s with
  | nil =>
    intro l hp _ _
    exact hp.eq_nil
  | cons b s ih =>
    intro l hp hm hnd
    cases l with
    | nil => exact absurd hp.symm.eq_nil (by simp)
    | cons a l =>
      simp only [List.map_cons, List.cons.injEq] at hm
      rw [List.map_cons, List.nodup_cons] at hnd
      have hab : a = b := by
        have ha : a ∈ b :: s := hp.subset (List.mem_cons_self _ _)
        rcases List.mem_cons.mp ha with h | h
        · exact h
        · exfalso
          apply hnd.1
          rw [← hm.1]
          exact List.mem_map_of_mem _ h
      subst hab
      rw [ih l (List.Perm.cons_inv hp) hm.2 hnd.2]

theorem sortById_eq_of_perm (l s : List Run) (hp : l.Perm s)
    (hs : s.Pairwise (fun a b => a.id < b.id)) : sortById l = s := by
  have h1 : (sortById l).Perm s := (sortById_perm l).trans hp
  have h2 : ((sortById l).map (fun r => r.id)).Sorted (· ≤ ·) :=
    List.pairwise_map.mpr (sortById_sorted l)
  have h3 : (s.map (fun r => r.id)).Sorted (· < ·) := List.pairwise_map.mpr hs
  have h4 : (sortById l).map (fun r => r.id) = s.map (fun r => r.id) :=
    List.eq_of_perm_of_sorted (h1.map _) h2 h3.le_of_lt
  exact eq_of_perm_of_map_id_eq s _ h1 h4 h3.nodup

/-- With `keep_minimum_runs = 0` the `del_runs` returned by `filterRuns` is
empty, whatever the runs: `splice(-0)` removes every element. -/
theorem filterRuns_of_keep_zero (clock : Nat → Int) (runs : List Run) (options : Options)
    (hk : options.keep_minimum_runs = 0) :
    filterRuns clock runs options
      = ([], (classify options clock runs).2 ++ sortById (classify options clock runs).1) := by
  unfold filterRuns
  rw [hk]
  by_cases h : (classify options clock runs).1.length > 0
  · rw [applyGuard_of_gt 0 _ h]
    have := splice_neg (sortById (classify options clock runs).1) 0
    simp only [Nat.cast_zero, neg_zero, if_true] at this ⊢
    rw [this]
  · have h0 : (classify options clock runs).1 = [] := by
      apply List.eq_nil_of_length_eq_zero
      omega
    rw [applyGuard_of_le 0 _ (by omega)]
    apply Prod.ext
    · exact h0
    · simp [h0, sortById]

/-- With `keep_minimum_runs >= 1` and more candidates than
`keep_minimum_runs`, the guard keeps in `del_runs` the candidates with the
smallest ids and moves the `keep_minimum_runs` candidates with the largest
ids to `skip_runs`. -/
theorem floor_invariant_of_pos (clock : Nat → Int) (runs : List Run) (options : Options)
    (hk : 0 < options.keep_minimum_runs)
    (hE : (classify options clock runs).1.length > options.keep_minimum_runs) :
    (filterRuns clock runs options).1
        = (sortById (classify options clock runs).1).take
            ((classify options clock runs).1.length - options.keep_minimum_runs)
    ∧ (filterRuns clock runs options).2
        = (classify options clock runs).2
          ++ (sortById (classify options clock runs).1).drop
            ((classify options clock runs).1.length - options.keep_minimum_runs)
    ∧ (filterRuns clock runs options).1.length
        = (classify options clock runs).1.length - options.keep_minimum_runs
    ∧ ((sortById (classify options clock runs).1).drop
            ((classify options clock runs).1.length - options.keep_minimum_runs)).length
        = options.keep_minimum_runs
    ∧ (∀ a ∈ (filterRuns clock runs options).1,
        ∀ b ∈ (sortById (classify options clock runs).1).drop
            ((classify options clock runs).1.length - options.keep_minimum_runs),
          a.id ≤ b.id) := by
  have hlen : (sortById (classify options clock runs).1).length
      = (classify options clock runs).1.length := (sortById_perm _).length_eq
  have hfr : filterRuns clock runs options
      = ((sortById (classify options clock runs).1).take
            ((classify options clock runs).1.length - options.keep_minimum_runs),
         (classify options clock runs).2
          ++ (sortById (classify options clock runs).1).drop
            ((classify options clock runs).1.length - options.keep_minimum_runs)) := by
    unfold filterRuns
    rw [applyGuard_of_gt _ _ hE, splice_neg, if_neg (by omega), hlen]
  rw [hfr]
  refine ⟨rfl, rfl, ?_, ?_, ?_⟩
  · simp only [List.length_take, hlen]
    omega
  · simp only [List.length_drop, hlen]
    omega
  · intro a ha b hb
    exact (sortById_sorted _).rel_of_mem_take_of_mem_drop ha hb

theorem isCandidateAt_sample (d : ℚ) (k id : Nat) (now c a : Int)
    (h : now - c = days a) (ha : |a| ≤ 10 ^ 8) :
    isCandidateAt (sampleOptions d k) now (sampleRun id c) = decide (d ≤ (a : ℚ)) := by
  have hs : shouldSkip (sampleOptions d k) (sampleRun id c) = false := rfl
  have he : elapsed_days now (sampleRun id c).created_at = a := elapsed_days_of_days _ _ a h ha
  simp only [isCandidateAt, hs, Bool.not_false, Bool.true_and, he, ge_iff_le]
  rfl

/-- C2, `keep_minimum_runs = 0`: three completed runs created 30 days ago
all pass the deletion test with `retain_days = 14` (E = 3 > 0), and
`filterRuns` returns an empty `del_runs` and all three runs in
`skip_runs`. -/
theorem keep_zero_deletes_nothing :
    (classify (sampleOptions 14 0) (fun _ => days 30)
        [sampleRun 1 0, sampleRun 2 0, sampleRun 3 0]).1.length = 3
    ∧ filterRuns (fun _ => days 30) [sampleRun 1 0, sampleRun 2 0, sampleRun 3 0]
          (sampleOptions 14 0)
        = ([], [sampleRun 1 0, sampleRun 2 0, sampleRun 3 0]) := by
  have hc : ∀ r ∈ [sampleRun 1 0, sampleRun 2 0, sampleRun 3 0],
      isCandidateAt (sampleOptions 14 0) (days 30) r = true := by
    intro r hr
    simp only [List.mem_cons, List.mem_singleton, List.not_mem_nil, or_false] at hr
    rcases hr with rfl | rfl | rfl <;>
      · rw [isCandidateAt_sample _ _ _ _ _ 30 (Int.sub_zero _) (by norm_num)]
        norm_num
  have hf : [sampleRun 1 0, sampleRun 2 0, sampleRun 3 0].filter
      (isCandidateAt (sampleOptions 14 0) (days 30))
        = [sampleRun 1 0, sampleRun 2 0, sampleRun 3 0] := List.filter_eq_self.mpr hc
  have hk : [sampleRun 1 0, sampleRun 2 0, sampleRun 3 0].filter
      (fun r => !isCandidateAt (sampleOptions 14 0) (days 30) r) = [] := by
    rw [List.filter_eq_nil_iff]
    intro r hr
    rw [hc r hr]
    decide
  rw [filterRuns_const, classify_const, hf, hk]
  exact ⟨rfl, by decide⟩

/-- C3: two completed runs created 30 days ago, `retain_days = 14` and
`keep_minimum_runs = 2`: the run list holds `keep_minimum_runs` runs, and
`filterRuns` returns both in `del_runs` and an empty `skip_runs`. -/
theorem floor_not_kept_when_candidates_le :
    [sampleRun 1 0, sampleRun 2 0].length ≥ (sampleOptions 14 2).keep_minimum_runs
    ∧ filterRuns (fun _ => days 30) [sampleRun 1 0, sampleRun 2 0] (sampleOptions 14 2)
        = ([sampleRun 1 0, sampleRun 2 0], [])
    ∧ ¬ (filterRuns (fun _ => days 30) [sampleRun 1 0, sampleRun 2 0]
          (sampleOptions 14 2)).2.length ≥ (sampleOptions 14 2).keep_minimum_runs := by
  have hc : ∀ r ∈ [sampleRun 1 0, sampleRun 2 0],
      isCandidateAt (sampleOptions 14 2) (days 30) r = true := by
    intro r hr
    simp only [List.mem_cons, List.mem_singleton, List.not_mem_nil, or_false] at hr
    rcases hr with rfl | rfl <;>
      · rw [isCandidateAt_sample _ _ _ _ _ 30 (Int.sub_zero _) (by norm_num)]
        norm_num
  have hf : [sampleRun 1 0, sampleRun 2 0].filter
      (isCandidateAt (sampleOptions 14 2) (days 30))
        = [sampleRun 1 0, sampleRun 2 0] := List.filter_eq_self.mpr hc
  have hk : [sampleRun 1 0, sampleRun 2 0].filter
      (fun r => !isCandidateAt (sampleOptions 14 2) (days 30) r) = [] := by
    rw [List.filter_eq_nil_iff]
    intro r hr
    rw [hc r hr]
    decide
  have h : filterRuns (fun _ => days 30) [sampleRun 1 0, sampleRun 2 0] (sampleOptions 14 2)
      = ([sampleRun 1 0, sampleRun 2 0], []) := by
    rw [filterRuns_const, hf, hk]
    decide
  rw [h]
  exact ⟨by decide, rfl, by decide⟩

/-! ## The scenario of the specification -/

theorem isCandidateAt_of_plain (options : Options) (now : Int) (r : Run)
    (hpat : options.delete_run_by_conclusion_pattern = [])
    (hbranch : options.check_branch_existence = false)
    (hpr : options.check_pullrequest_exist = false)
    (hstatus : r.status = "completed".toList) :
    isCandidateAt options now r
      = decide (options.retain_days ≤ elapsed_days now r.created_at) := by
  have h : shouldSkip options r = false := by
    rw [← Bool.not_eq_true, shouldSkip_eq_true_iff]
    simp [hpat, hbranch, hpr, hstatus]
  simp only [isCandidateAt, h, Bool.not_false, Bool.true_and, ge_iff_le]

/-- C10: ten completed runs aged 40, 35, 30, 25, 20, 15, 10, 5, 3 and 1
days whose ids increase with creation time, given in any order, with
`retain_days = 14`, `keep_minimum_runs = 2`, an empty conclusion pattern and
both checks disabled: `del_runs` is the four runs aged 40, 35, 30 and 25
days and `skip_runs` holds exactly the six other runs. -/
theorem spec_scenario (now : Int) (r40 r35 r30 r25 r20 r15 r10 r5 r3 r1 : Run)
    (options : Options) (runs : List Run)
    (hstatus : ∀ r ∈ [r40, r35, r30, r25, r20, r15, r10, r5, r3, r1],
      r.status = "completed".toList)
    (hcreated : [r40, r35, r30, r25, r20, r15, r10, r5, r3, r1].map (fun r => r.created_at)
      = [40, 35, 30, 25, 20, 15, 10, 5, 3, 1].map (fun a => now - days a))
    (hids : [r40, r35, r30, r25, r20, r15, r10, r5, r3, r1].Pairwise
      (fun a b => a.id < b.id))
    (hretain : options.retain_days = 14)
    (hkeep : options.keep_minimum_runs = 2)
    (hpat : options.delete_run_by_conclusion_pattern = [])
    (hbranch : options.check_branch_existence = false)
    (hpr : options.check_pullrequest_exist = false)
    (hperm : runs.Perm [r40, r35, r30, r25, r20, r15, r10, r5, r3, r1]) :
    (filterRuns (fun _ => now) runs options).1 = [r40, r35, r30, r25]
    ∧ (filterRuns (fun _ => now) runs options).2.Perm [r20, r15, r10, r5, r3, r1] := by
  simp only [List.map_cons, List.map_nil, List.cons.injEq, and_true] at hcreated
  obtain ⟨c40, c35, c30, c25, c20, c15, c10, c5, c3, c1⟩ := hcreated
  simp only [List.mem_cons, List.mem_singleton, forall_eq_or_imp, forall_eq, List.not_mem_nil,
    false_implies, implies_true, and_true] at hstatus
  obtain ⟨s40, s35, s30, s25, s20, s15, s10, s5, s3, s1⟩ := hstatus
  have hcand : ∀ r, r.status = "completed".toList → ∀ a : Int, |a| ≤ 10 ^ 8 →
      r.created_at = now - days a →
      isCandidateAt options now r = decide ((14 : ℚ) ≤ (a : ℚ)) := by
    intro r hs a ha hc
    rw [isCandidateAt_of_plain options now r hpat hbranch hpr hs, hretain,
      elapsed_days_of_days now r.created_at a (by rw [hc]; ring) ha]
  have e40 := hcand r40 s40 40 (by norm_num) c40
  have e35 := hcand r35 s35 35 (by norm_num) c35
  have e30 := hcand r30 s30 30 (by norm_num) c30
  have e25 := hcand r25 s25 25 (by norm_num) c25
  have e20 := hcand r20 s20 20 (by norm_num) c20
  have e15 := hcand r15 s15 15 (by norm_num) c15
  have e10 := hcand r10 s10 10 (by norm_num) c10
  have e5 := hcand r5 s5 5 (by norm_num) c5
  have e3 := hcand r3 s3 3 (by norm_num) c3
  have e1 := hcand r1 s1 1 (by norm_num) c1
  norm_num at e40 e35 e30 e25 e20 e15 e10 e5 e3 e1
  have hfc : [r40, r35, r30, r25, r20, r15, r10, r5, r3, r1].filter (isCandidateAt options now)
      = [r40, r35, r30, r25, r20, r15] := by
    simp [List.filter, e40, e35, e30, e25, e20, e15, e10, e5, e3, e1]
  have hfk : [r40, r35, r30, r25, r20, r15, r10, r5, r3, r1].filter
        (fun r => !isCandidateAt options now r)
      = [r10, r5, r3, r1] := by
    simp [List.filter, e40, e35, e30, e25, e20, e15, e10, e5, e3, e1]
  have hpc : (runs.filter (isCandidateAt options now)).Perm [r40, r35, r30, r25, r20, r15] := by
    rw [← hfc]; exact hperm.filter _
  have hpk : (runs.filter (fun r => !isCandidateAt options now r)).Perm [r10, r5, r3, r1] := by
    rw [← hfk]; exact hperm.filter _
  have hsorted : [r40, r35, r30, r25, r20, r15].Pairwise (fun a b => a.id < b.id) :=
    hids.sublist (by simp)
  have hsort := sortById_eq_of_perm _ _ hpc hsorted
  have hlen : (runs.filter (isCandidateAt options now)).length = 6 := hpc.length_eq
  rw [filterRuns_const, hkeep, applyGuard_of_gt _ _ (by simp only [hlen]; omega), splice_neg, hsort]
  refine ⟨by simp, ?_⟩
  show (runs.filter (fun r => !isCandidateAt options now r) ++ [r20, r15]).Perm _
  exact (List.perm_append_comm).trans (List.Perm.append_left [r20, r15] hpk)

theorem spec_scenario_witness :
    (filterRuns (fun _ => days 100)
        [sampleRun 10 (days 100 - days 1), sampleRun 9 (days 100 - days 3),
         sampleRun 8 (days 100 - days 5), sampleRun 7 (days 100 - days 10),
         sampleRun 6 (days 100 - days 15), sampleRun 5 (days 100 - days 20),
         sampleRun 4 (days 100 - days 25), sampleRun 3 (days 100 - days 30),
         sampleRun 2 (days 100 - days 35), sampleRun 1 (days 100 - days 40)]
        (sampleOptions 14 2)).1
      = [sampleRun 1 (days 100 - days 40), sampleRun 2 (days 100 - days 35),
         sampleRun 3 (days 100 - days 30), sampleRun 4 (days 100 - days 25)]
    ∧ (filterRuns (fun _ => days 100)
        [sampleRun 10 (days 100 - days 1), sampleRun 9 (days 100 - days 3),
         sampleRun 8 (days 100 - days 5), sampleRun 7 (days 100 - days 10),
         sampleRun 6 (days 100 - days 15), sampleRun 5 (days 100 - days 20),
         sampleRun 4 (days 100 - days 25), sampleRun 3 (days 100 - days 30),
         sampleRun 2 (days 100 - days 35), sampleRun 1 (days 100 - days 40)]
        (sampleOptions 14 2)).2.Perm
        [sampleRun 5 (days 100 - days 20), sampleRun 6 (days 100 - days 15),
         sampleRun 7 (days 100 - days 10), sampleRun 8 (days 100 - days 5),
         sampleRun 9 (days 100 - days 3), sampleRun 10 (days 100 - days 1)] :=
  spec_scenario (days 100)
    (sampleRun 1 (days 100 - days 40)) (sampleRun 2 (days 100 - days 35))
    (sampleRun 3 (days 100 - days 30)) (sampleRun 4 (days 100 - days 25))
    (sampleRun 5 (days 100 - days 20)) (sampleRun 6 (days 100 - days 15))
    (sampleRun 7 (days 100 - days 10)) (sampleRun 8 (days 100 - days 5))
    (sampleRun 9 (days 100 - days 3)) (sampleRun 10 (days 100 - days 1))
    (sampleOptions 14 2) _
    (by decide) (by rfl) (by decide) rfl rfl rfl rfl rfl
    (List.reverse_perm
      [sampleRun 1 (days 100 - days 40), sampleRun 2 (days 100 - days 35),
       sampleRun 3 (days 100 - days 30), sampleRun 4 (days 100 - days 25),
       sampleRun 5 (days 100 - days 20), sampleRun 6 (days 100 - days 15),
       sampleRun 7 (days 100 - days 10), sampleRun 8 (days 100 - days 5),
       sampleRun 9 (days 100 - days 3), sampleRun 10 (days 100 - days 1)])

/-! ## Instances on sample data -/

theorem filterRuns_partition_witness :
    [sampleRun 1 0, sampleRun 2 0, sampleRunInFlight 3 0].Nodup
    ∧ ∀ r, ¬ (r ∈ (filterRuns (fun _ => days 30)
                [sampleRun 1 0, sampleRun 2 0, sampleRunInFlight 3 0] (sampleOptions 14 1)).1
          ∧ r ∈ (filterRuns (fun _ => days 30)
                [sampleRun 1 0, sampleRun 2 0, sampleRunInFlight 3 0] (sampleOptions 14 1)).2) :=
  ⟨by decide,
    (filterRuns_partition (fun _ => days 30)
      [sampleRun 1 0, sampleRun 2 0, sampleRunInFlight 3 0] (sampleOptions 14 1)).2.2.2
      (by decide)⟩

theorem skip_predicates_unconditional_witness :
    sampleRunInFlight 3 0
        ∈ (filterRuns (fun _ => days 30) [sampleRun 1 0, sampleRunInFlight 3 0]
            (sampleOptions 14 0)).2
    ∧ sampleRunInFlight 3 0
        ∉ (filterRuns (fun _ => days 30) [sampleRun 1 0, sampleRunInFlight 3 0]
            (sampleOptions 14 0)).1 :=
  (skip_predicates_unconditional (fun _ => days 30) [sampleRun 1 0, sampleRunInFlight 3 0]
    (sampleOptions 14 0)).1 (sampleRunInFlight 3 0) (by decide) (Or.inl (by decide))

theorem age_boundary_witness :
    sampleRun 1 0 ∈ (classify (sampleOptions 14 2) (fun _ => days 14)
        [sampleRun 1 0, sampleRun 2 1]).1
    ∧ sampleRun 2 1 ∈ (classify (sampleOptions 14 2) (fun _ => days 14)
        [sampleRun 1 0, sampleRun 2 1]).2
    ∧ sampleRun 2 1 ∉ (classify (sampleOptions 14 2) (fun _ => days 14)
        [sampleRun 1 0, sampleRun 2 1]).1 :=
  ⟨(age_boundary (sampleOptions 14 2) (days 14) [sampleRun 1 0, sampleRun 2 1]).2.2.2.1
      (roundDouble_intCast 14 (by norm_num))
      (sampleRun 1 0) (by decide) rfl (by decide)
      (by norm_num [exactElapsedDays, days, sampleRun, sampleOptions]),
   (age_boundary (sampleOptions 14 2) (days 14) [sampleRun 1 0, sampleRun 2 1]).2.2.2.2.1
      (sampleRun 2 1) (by decide) rfl (by decide)
      (by norm_num [exactElapsedDays, days, sampleRun, sampleOptions])⟩

theorem guard_only_moves_to_skip_witness :
    filterRuns (fun _ => days 30) [sampleRun 1 0, sampleRun 2 0] (sampleOptions 14 2)
      = classify (sampleOptions 14 2) (fun _ => days 30) [sampleRun 1 0, sampleRun 2 0] :=
  (guard_only_moves_to_skip (fun _ => days 30) [sampleRun 1 0, sampleRun 2 0]
    (sampleOptions 14 2)).2.2.2.2
    (by rw [classify_const]; exact List.length_filter_le _ _)

theorem filterWorkflowsByPattern_spec_witness :
    replaceFirst workflowsDir (workflowsDir ++ "ci.yml".toList) = "ci.yml".toList
    ∧ specFilename (workflowsDir ++ "ci.yml".toList) = "ci.yml".toList :=
  (filterWorkflowsByPattern_spec [] []).2.2.2.2 "ci.yml".toList (by decide)

theorem state_filter_step_witness :
    applyStatePattern asciiUpper
        [sampleWorkflow 1 "CI" "ci.yml" "active",
         sampleWorkflow 2 "Docs" "docs.yml" "disabled_manually"]
        "disabled_manually, disabled_inactivity".toList
      = [sampleWorkflow 1 "CI" "ci.yml" "active",
         sampleWorkflow 2 "Docs" "docs.yml" "disabled_manually"].filter
          (fun w => decide (w.state ∈
            (split ',' "disabled_manually, disabled_inactivity".toList).map trim)) :=
  (state_filter_step asciiUpper
    [sampleWorkflow 1 "CI" "ci.yml" "active",
     sampleWorkflow 2 "Docs" "docs.yml" "disabled_manually"]
    [] "disabled_manually, disabled_inactivity".toList).2.1 (by decide) (by decide)

theorem orphan_detection_and_bypass_witness :
    Event.deleteRun false 2 "CI".toList
      ∈ run asciiUpper (sampleInputs 14 5) sampleListings (fun _ _ => days 30) :=
  (orphan_detection_and_bypass asciiUpper (sampleInputs 14 5) sampleListings
    (fun _ _ => days 30)).2.2.1 (sampleRunOf 2 9) (by decide) (by decide)

end DeleteWorkflowRuns
